import Mathlib

/-!
Formal model of the dependency-graph orchestrator with health-gated readiness
and artifact promotion that underlies the bizaway devops-challenge repository,
together with models of the concrete code in the repository (the AppModule
Mongoose connection factory, the Terraform VPC module, and the Visit schema
with its service). Each claimed property of the specification is stated and
proved against these definitions.
-/

/-- Modelled from the spec: a Stage is a unit of work with a unique id and an
ordered set of dependency ids (section 3 of the specification; the engine
itself is not present in the repository, only its declarative inputs such as
the compose `depends_on` wiring). Inputs, outputs and the service descriptor
do not affect the graph-resolution and failure-propagation claims and are
omitted. -/
structure Stage where
  id : String
  deps : List String
deriving DecidableEq, Repr

def stageIds (stages : List Stage) : List String :=
  stages.map (fun s => s.id)

/-- Modelled from the spec: errors of the Graph Resolver (section 4.1):
`CycleError` identifies offending stages stuck on a cycle, and
`DanglingReferenceError` lists dependency ids that name no stage. -/
inductive ResolveError where
  | CycleError (remaining : List String)
  | DanglingReferenceError (missing : List String)
deriving DecidableEq, Repr

/-- Dependency ids referenced by some stage that name no stage in the graph. -/
def missingDeps (stages : List Stage) : List String :=
  (stages.map (fun s => s.deps.filter (fun d => !(stageIds stages).contains d))).flatten

/-- A stage is ready once every one of its dependencies is already done. -/
def stageReady (done : List String) (s : Stage) : Bool :=
  s.deps.all (fun d => done.contains d)

/-- Modelled from the spec: the level-building loop of the Graph Resolver
(section 4.1). Each round takes the maximal set of pending stages whose
dependencies are all satisfied by earlier levels (the `done` accumulator),
emits their ids as the next level, and recurses on the rest; if no pending
stage is ready the dependency relation is cyclic. Fuel bounds the recursion
by the number of stages. -/
def resolveAux (fuel : Nat) (done : List String) (pending : List Stage) :
    Except ResolveError (List (List String)) :=
  match fuel with
  | 0 =>
      if pending.isEmpty then Except.ok [] else
        Except.error (ResolveError.CycleError (stageIds pending))
  | Nat.succ fuel =>
      if pending.isEmpty then Except.ok []
      else
        if (pending.filter (stageReady done)).isEmpty then
          Except.error (ResolveError.CycleError (stageIds pending))
        else
          (resolveAux fuel (done ++ stageIds (pending.filter (stageReady done)))
              (pending.filter (fun s => !stageReady done s))).map
            (fun lvls => stageIds (pending.filter (stageReady done)) :: lvls)

/-- Modelled from the spec: the Graph Resolver (section 4.1). Rejects graphs
with dangling dependency references, then builds the ordered list of
parallel-execution levels. -/
def resolve (stages : List Stage) : Except ResolveError (List (List String)) :=
  if (missingDeps stages).isEmpty then resolveAux stages.length [] stages
  else Except.error (ResolveError.DanglingReferenceError (missingDeps stages))

/-- A stage graph is acyclic when some rank function strictly decreases along
every dependency edge. -/
def Acyclic (stages : List Stage) : Prop :=
  ∃ rnk : String → Nat, ∀ s ∈ stages, ∀ d ∈ s.deps, rnk d < rnk s.id

/-- Direct dependency edge: stage `a` declares `b` among its dependencies. -/
def DepEdge (stages : List Stage) (a b : String) : Prop :=
  ∃ s ∈ stages, s.id = a ∧ b ∈ s.deps

/-- Transitive dependency: a nonempty chain of dependency edges from `a`
down to `b`. -/
inductive DepPath (stages : List Stage) : String → String → Prop where
  | direct {a b : String} : DepEdge stages a b → DepPath stages a b
  | step {a b c : String} : DepEdge stages a b → DepPath stages b c → DepPath stages a c

/-- Some stage references a dependency id that names no stage. -/
def HasDangling (stages : List Stage) : Prop :=
  ∃ s ∈ stages, ∃ d ∈ s.deps, d ∉ stageIds stages

/-- The dependency relation contains a cycle. -/
def HasCycle (stages : List Stage) : Prop :=
  ∃ a, DepPath stages a a

/-- Index of the first level containing the given id (length of the level
list when absent). -/
def lvlRank (lvls : List (List String)) (x : String) : Nat :=
  lvls.findIdx (fun l => l.contains x)

/-- Modelled from the spec: terminal per-stage execution states of a run
(section 4.5). A skipped stage carries the id of the originating failure it
is attributed to. -/
inductive Status where
  | Succeeded
  | Failed
  | Skipped (cause : String)
deriving DecidableEq, Repr

/-- Failure verdict a dependency contributes to its dependents: a `Failed`
dependency is itself the originating cause, a `Skipped` dependency forwards
the cause it was attributed. -/
def depVerdict (recs : String → Option Status) (d : String) : Option String :=
  match recs d with
  | some Status.Failed => some d
  | some (Status.Skipped c) => some c
  | _ => none

/-- Modelled from the spec: the Stage Executor as driven by the Driver
(sections 4.2 and 4.5). If any dependency reports failure the stage is marked
`Skipped` with the originating cause and its external action is never invoked
(second component `false`); otherwise the action runs exactly once and yields
`Succeeded` or `Failed`. -/
def execStage (action : String → Bool) (recs : String → Option Status) (s : Stage) :
    Status × Bool :=
  match s.deps.findSome? (depVerdict recs) with
  | some c => (Status.Skipped c, false)
  | none => (if action s.id then Status.Succeeded else Status.Failed, true)

/-- Record table after dispatching one level: every stage id in the level is
recorded with the outcome computed against the records of earlier levels. -/
def levelUpdate (action : String → Bool) (stages : List Stage)
    (recs : String → Option Status) (lvl : List String) : String → Option Status :=
  fun x =>
    if lvl.contains x then
      match stages.find? (fun s => s.id == x) with
      | some s => some (execStage action recs s).fst
      | none => recs x
    else recs x

/-- Invocation table after dispatching one level: marks whether the external
action of each stage in the level was actually invoked. -/
def invokedUpdate (action : String → Bool) (stages : List Stage)
    (recs : String → Option Status) (inv : String → Bool) (lvl : List String) :
    String → Bool :=
  fun x =>
    if lvl.contains x then
      match stages.find? (fun s => s.id == x) with
      | some s => (execStage action recs s).snd
      | none => inv x
    else inv x

/-- Modelled from the spec: the Driver walking the resolved levels in order
(section 4.5), dispatching every stage of a level against the records of the
strictly earlier levels. -/
def runLevels (action : String → Bool) (stages : List Stage)
    (st : (String → Option Status) × (String → Bool)) :
    List (List String) → (String → Option Status) × (String → Bool)
  | [] => st
  | lvl :: rest =>
      runLevels action stages
        (levelUpdate action stages st.fst lvl,
         invokedUpdate action stages st.fst st.snd lvl) rest

/-- Result of a run: exit code surfaced to the caller, the per-stage record
table, and which stages had their external action invoked. -/
structure RunResult where
  exitCode : Nat
  status : String → Option Status
  invoked : String → Bool

/-- Modelled from the spec: the Driver run over already-resolved levels
(section 4.5); exit code 0 when no stage failed, 1 otherwise (section 6). -/
def driverRun (action : String → Bool) (stages : List Stage)
    (lvls : List (List String)) : RunResult :=
  let st := runLevels action stages (fun _ => none, fun _ => false) lvls
  ⟨if stages.any (fun s => decide (st.fst s.id = some Status.Failed)) then 1 else 0,
   st.fst, st.snd⟩

/-- Modelled from the spec: `apply(graph, bindings)` (section 6). Structural
errors abort the run before any dispatch with exit code 2; otherwise the
Driver executes the resolved levels. The external action combines stage
execution success with the health verdict of its service descriptor when
present. -/
def applyRun (action : String → Bool) (stages : List Stage) : RunResult :=
  match resolve stages with
  | Except.error _ => ⟨2, fun _ => none, fun _ => false⟩
  | Except.ok lvls => driverRun action stages lvls

/-- Modelled from the spec: terminal verdicts of a Health Gate watch
(section 4.3). -/
inductive Verdict where
  | Healthy
  | Failed
deriving DecidableEq, Repr

/-- Outcome of a Health Gate watch: terminal verdict, elapsed time since the
watch started, and how many probe attempts were made. -/
structure WatchOutcome where
  verdict : Verdict
  elapsed : Nat
  attemptsUsed : Nat
deriving DecidableEq, Repr

/-- Modelled from the spec: the attempt loop of the Health Gate (section 4.3).
Attempt `i` takes `dur i` time, truncated at `timeout`; it succeeds when the
probe reports true within the timeout. The first success yields `Healthy`
immediately; otherwise the watch waits `interval` before the next attempt and
yields `Failed` once the remaining-attempt budget is exhausted. -/
def healthWatchAux (probe : Nat → Bool) (dur : Nat → Nat) (interval timeout : Nat) :
    Nat → Nat → Nat → WatchOutcome
  | 0, i, elapsed => ⟨Verdict.Failed, elapsed, i⟩
  | Nat.succ n, i, elapsed =>
      if probe i = true ∧ dur i ≤ timeout then
        ⟨Verdict.Healthy, elapsed + min (dur i) timeout, i + 1⟩
      else
        match n with
        | 0 => ⟨Verdict.Failed, elapsed + min (dur i) timeout, i + 1⟩
        | Nat.succ m =>
            healthWatchAux probe dur interval timeout (Nat.succ m) (i + 1)
              (elapsed + min (dur i) timeout + interval)

/-- Modelled from the spec: `watch(service, probe, interval, timeout,
maxAttempts)` of the Health Gate (section 4.3), as instantiated by the mongo
compose healthcheck (interval 10s, timeout 5s, retries 6). -/
def healthWatch (probe : Nat → Bool) (dur : Nat → Nat)
    (interval timeout maxAttempts : Nat) : WatchOutcome :=
  healthWatchAux probe dur interval timeout maxAttempts 0 0

/-- Modelled from the spec: lifecycle states of a service instance
(section 3). -/
inductive ServiceState where
  | Unknown
  | Starting
  | Healthy
  | Failed
deriving DecidableEq, Repr

/-- Events acting on a service instance: the stage starts the service, a probe
attempt succeeds, the attempt budget is exhausted, or the run is cancelled. -/
inductive ServiceEvent where
  | start
  | probeSuccess
  | attemptsExhausted
  | cancel
deriving DecidableEq, Repr

/-- Modelled from the spec: the per-service lifecycle state machine
(section 3): Unknown to Starting on start, Starting to Healthy on probe
success, Starting to Failed on attempt exhaustion; every other event,
including run cancellation, leaves the state unchanged. -/
def serviceStep (s : ServiceState) (e : ServiceEvent) : ServiceState :=
  match s, e with
  | ServiceState.Unknown, ServiceEvent.start => ServiceState.Starting
  | ServiceState.Starting, ServiceEvent.probeSuccess => ServiceState.Healthy
  | ServiceState.Starting, ServiceEvent.attemptsExhausted => ServiceState.Failed
  | s, _ => s

/-- Terminal service states per the specification. -/
def TerminalState (s : ServiceState) : Prop :=
  s = ServiceState.Healthy ∨ s = ServiceState.Failed

/-- Modelled from the spec: an Artifact is an immutable content-identified
build output (section 3): identity plus an opaque payload handle. -/
structure Artifact where
  identity : String
  payload : String
deriving DecidableEq, Repr

/-- Payload handle stored in the artifact store under an identity, if any. -/
def lookupArtifact (st : List (String × String)) (id : String) : Option String :=
  (st.find? (fun p => p.fst == id)).map (fun p => p.snd)

/-- Outcome of a promotion: the returned artifact, the updated store, and how
many times the payload producer was invoked by this call. -/
structure PromoteResult where
  artifact : Artifact
  store : List (String × String)
  producerCalls : Nat

/-- Modelled from the spec: `promote(identity, payloadProducer)` of the
Artifact Promoter (section 4.4). An artifact already stored under the
identity is returned unchanged without invoking the producer; otherwise the
producer runs once and its payload is stored under the identity. -/
def promote (st : List (String × String)) (id : String) (producer : Unit → String) :
    PromoteResult :=
  match lookupArtifact st id with
  | some p => ⟨⟨id, p⟩, st, 0⟩
  | none => ⟨⟨id, producer ()⟩, (id, producer ()) :: st, 1⟩

/-- Default Mongo connection string of AppModule
(src/main/src/app.module.ts). -/
def defaultMongoUri : String := "mongodb://localhost:27017/tech_challenge"

/-- Environment variable name consulted by the Mongoose factory. -/
def mongoUriKey : String := "MONGODB_URI"

/-- Mongoose connection factory of AppModule (src/main/src/app.module.ts):
`configService.get MONGODB_URI` with the localhost default when the variable
is not bound. -/
def mongooseUri (env : String → Option String) : String :=
  (env mongoUriKey).getD defaultMongoUri

/-- IPv4 CIDR block: base address as a 32-bit number plus prefix length. -/
structure Cidr where
  base : Nat
  prefixLen : Nat
deriving DecidableEq, Repr

/-- Numeric value of a dotted-quad IPv4 address. -/
def ipv4 (a b c d : Nat) : Nat :=
  ((a * 256 + b) * 256 + c) * 256 + d

/-- Terraform `cidrsubnet(prefix, newbits, netnum)` on IPv4: extend the prefix
by `newbits` and select child network `netnum`
(src/06 Infrastructure as Code (IaC)/terraform/modules/vpc/main.tf). -/
def cidrsubnet (c : Cidr) (newbits netnum : Nat) : Cidr :=
  ⟨c.base + netnum * 2 ^ (32 - (c.prefixLen + newbits)), c.prefixLen + newbits⟩

/-- The VPC block `10.0.0.0/16` of aws_vpc.main. -/
def vpcMain : Cidr := ⟨ipv4 10 0 0 0, 16⟩

/-- The two private subnets of aws_subnet.private: count = 2 with
`cidrsubnet("10.0.0.0/16", 4, count.index)`. -/
def privateSubnets : List Cidr :=
  (List.range 2).map (fun i => cidrsubnet vpcMain 4 i)

/-- Set of addresses covered by a CIDR block. -/
def addrRange (c : Cidr) : Set Nat :=
  Set.Ico c.base (c.base + 2 ^ (32 - c.prefixLen))

/-- A stored visit document with the three schema fields
(src/main/src/visits/entities/visit.entity.ts); the date is modelled as a
numeric timestamp. -/
structure Visit where
  visit_dt : Nat
  ip : String
  user_agent : String
deriving DecidableEq, Repr

/-- Creation input for a visit; any of the three required fields may be
absent. -/
structure CreateVisitDto where
  visit_dt : Option Nat
  ip : Option String
  user_agent : Option String
deriving DecidableEq, Repr

/-- Schema-validation failure for a missing required field. -/
inductive ValidationError where
  | missingRequired (field : String)
deriving DecidableEq, Repr

/-- Validation performed by the Visit schema: each of the three props is
declared `required: true`, so a document missing any of them is rejected
(src/main/src/visits/entities/visit.entity.ts). -/
def validateVisit (dto : CreateVisitDto) : Except ValidationError Visit :=
  match dto.visit_dt with
  | none => Except.error (ValidationError.missingRequired ("visit_dt"))
  | some dt =>
    match dto.ip with
    | none => Except.error (ValidationError.missingRequired ("ip"))
    | some ipv =>
      match dto.user_agent with
      | none => Except.error (ValidationError.missingRequired ("user_agent"))
      | some ua => Except.ok ⟨dt, ipv, ua⟩

/-- VisitsService.create (src/main/src/visits/visits.service.ts): persist the
validated document into the collection and return it; on validation failure
nothing is stored. -/
def visitsCreate (store : List Visit) (dto : CreateVisitDto) :
    Except ValidationError (Visit × List Visit) :=
  match validateVisit dto with
  | Except.ok v => Except.ok (v, store ++ [v])
  | Except.error e => Except.error e

/-- A two-stage acyclic graph mirroring the compose topology: the backend
depends on the mongo service. -/
def demoOkStages : List Stage := [⟨"mongo", []⟩, ⟨"backend", ["mongo"]⟩]

/-- Rank witnessing acyclicity of the compose topology. -/
def demoOkRank : String → Nat := fun x => if x = "mongo" then 0 else 1

/-- The two-branch failure-isolation graph of the specification: C depends on
A, D depends on B, no edge between the branches. -/
def demoStages : List Stage := [⟨"A", []⟩, ⟨"B", []⟩, ⟨"C", ["A"]⟩, ⟨"D", ["B"]⟩]

/-- External action for the failure-isolation example: stage A fails, every
other stage succeeds. -/
def demoAction : String → Bool := fun id => !(id == "A")

/-- Rank witnessing acyclicity of the failure-isolation graph. -/
def demoRank : String → Nat := fun x => if x = "C" ∨ x = "D" then 1 else 0

/-- A two-stage cyclic graph. -/
def demoCycleStages : List Stage := [⟨"a", ["b"]⟩, ⟨"b", ["a"]⟩]

/-- A graph whose only stage names a dependency that does not exist. -/
def demoDanglingStages : List Stage := [⟨"app", ["db"]⟩]

/-- Helper lemma: all-failing probes drive the attempt loop to the Failed
verdict, with elapsed time between the inter-attempt waits alone and the full
attempt budget including per-attempt timeout slack. -/
theorem healthWatchAux_never_succeeds (probe : Nat → Bool) (dur : Nat → Nat)
    (interval timeout : Nat) (hprobe : ∀ i, probe i = false) :
    ∀ n i e, (healthWatchAux probe dur interval timeout n i e).verdict = Verdict.Failed ∧
      e + (n - 1) * interval ≤ (healthWatchAux probe dur interval timeout n i e).elapsed ∧
      (healthWatchAux probe dur interval timeout n i e).elapsed ≤
        e + n * (interval + timeout) := by
  intro n
  induction n with
  | zero => intro i e; simp [healthWatchAux]
  | succ n ih =>
      intro i e
      have hcond : ¬(probe i = true ∧ dur i ≤ timeout) := by simp [hprobe i]
      have hd : min (dur i) timeout ≤ timeout := Nat.min_le_right _ _
      cases n with
      | zero =>
          have heq : healthWatchAux probe dur interval timeout 1 i e =
              ⟨Verdict.Failed, e + min (dur i) timeout, i + 1⟩ := by
            simp [healthWatchAux, hcond]
          rw [heq]
          refine ⟨rfl, by simp, ?_⟩
          show e + min (dur i) timeout ≤ e + 1 * (interval + timeout)
          have : min (dur i) timeout ≤ interval + timeout :=
            le_trans hd (Nat.le_add_left _ _)
          omega
      | succ m =>
          have heq : healthWatchAux probe dur interval timeout (m + 1 + 1) i e =
              healthWatchAux probe dur interval timeout (m + 1) (i + 1)
                (e + min (dur i) timeout + interval) := by
            simp [healthWatchAux, hcond]
          rw [heq]
          obtain ⟨hv, hlo, hhi⟩ := ih (i + 1) (e + min (dur i) timeout + interval)
          refine ⟨hv, ?_, ?_⟩
          · have hgs : (m + 1 + 1 - 1) * interval = (m + 1 - 1) * interval + interval := by
              simp [Nat.succ_sub_one]; ring
            have hstep : e + (m + 1 + 1 - 1) * interval ≤
                e + min (dur i) timeout + interval + (m + 1 - 1) * interval := by
              rw [hgs]
              have : e + ((m + 1 - 1) * interval + interval) =
                  e + interval + (m + 1 - 1) * interval := by ring
              rw [this]
              have h1 : e + interval ≤ e + min (dur i) timeout + interval := by omega
              exact Nat.add_le_add_right h1 _
            exact le_trans hstep hlo
          · have hexp : (m + 1 + 1) * (interval + timeout) =
                (m + 1) * (interval + timeout) + interval + timeout := by ring
            refine le_trans hhi ?_
            have h2 : e + min (dur i) timeout + interval ≤
                e + timeout + interval := by omega
            calc e + min (dur i) timeout + interval + (m + 1) * (interval + timeout)
                ≤ e + timeout + interval + (m + 1) * (interval + timeout) :=
                  Nat.add_le_add_right h2 _
              _ = e + ((m + 1) * (interval + timeout) + interval + timeout) := by ring
              _ = e + (m + 1 + 1) * (interval + timeout) := by rw [hexp]

/-- C3: for a Health Gate watch whose probe never succeeds the watch returns
the terminal verdict Failed; with interval 10s, timeout 5s and maxAttempts 6
the elapsed time is no earlier than 5 times 10s and no later than 6 times
(10s plus 5s); in general the elapsed time is bounded above by interval times
maxAttempts plus the per-attempt timeout slack. -/
theorem health_gate_failed_within_budget (probe : Nat → Bool) (dur : Nat → Nat)
    (interval timeout maxAttempts : Nat) (hprobe : ∀ i, probe i = false) :
    (healthWatch probe dur interval timeout maxAttempts).verdict = Verdict.Failed ∧
    (maxAttempts - 1) * interval ≤
      (healthWatch probe dur interval timeout maxAttempts).elapsed ∧
    (healthWatch probe dur interval timeout maxAttempts).elapsed ≤
      interval * maxAttempts + timeout * maxAttempts ∧
    (interval = 10 → timeout = 5 → maxAttempts = 6 →
      5 * 10 ≤ (healthWatch probe dur interval timeout maxAttempts).elapsed ∧
      (healthWatch probe dur interval timeout maxAttempts).elapsed ≤ 6 * (10 + 5)) := by
  obtain ⟨hv, hlo, hhi⟩ :=
    healthWatchAux_never_succeeds probe dur interval timeout hprobe maxAttempts 0 0
  have hlo0 : (maxAttempts - 1) * interval ≤
      (healthWatch probe dur interval timeout maxAttempts).elapsed := by
    simpa [healthWatch] using hlo
  have hhi0 : (healthWatch probe dur interval timeout maxAttempts).elapsed ≤
      interval * maxAttempts + timeout * maxAttempts := by
    have h1 : (healthWatch probe dur interval timeout maxAttempts).elapsed ≤
        maxAttempts * (interval + timeout) := by simpa [healthWatch] using hhi
    have h2 : maxAttempts * (interval + timeout) =
        interval * maxAttempts + timeout * maxAttempts := by ring
    rw [h2] at h1; exact h1
  refine ⟨by simpa [healthWatch] using hv, hlo0, hhi0, ?_⟩
  intro h1 h2 h3
  subst h1; subst h2; subst h3
  constructor
  · exact le_trans (by norm_num) hlo0
  · exact le_trans hhi0 (by norm_num)

/-- Witness: the compose mongo healthcheck parameters with a probe that never
succeeds and probes that overrun the timeout. -/
theorem health_gate_failed_within_budget_witness :
    (healthWatch (fun _ => false) (fun _ => 7) 10 5 6).verdict = Verdict.Failed ∧
    5 * 10 ≤ (healthWatch (fun _ => false) (fun _ => 7) 10 5 6).elapsed ∧
    (healthWatch (fun _ => false) (fun _ => 7) 10 5 6).elapsed ≤ 6 * (10 + 5) := by
  have h := health_gate_failed_within_budget (fun _ => false) (fun _ => 7) 10 5 6
    (fun _ => rfl)
  exact ⟨h.1, (h.2.2.2 rfl rfl rfl).1, (h.2.2.2 rfl rfl rfl).2⟩

/-- Helper lemma: the attempt loop stops with Healthy at the first successful
attempt, using exactly that many attempts. -/
theorem healthWatchAux_first_success (probe : Nat → Bool) (dur : Nat → Nat)
    (interval timeout : Nat) :
    ∀ k n i e, k < n → (∀ j, j < k → probe (i + j) = false) →
      probe (i + k) = true → dur (i + k) ≤ timeout →
      (healthWatchAux probe dur interval timeout n i e).verdict = Verdict.Healthy ∧
      (healthWatchAux probe dur interval timeout n i e).attemptsUsed = i + k + 1 ∧
      (healthWatchAux probe dur interval timeout n i e).elapsed ≤
        e + k * (interval + timeout) + timeout := by
  intro k
  induction k with
  | zero =>
      intro n i e hk hfail hsucc hdur
      obtain ⟨n', rfl⟩ : ∃ n', n = n' + 1 := ⟨n - 1, by omega⟩
      have hcond : probe i = true ∧ dur i ≤ timeout := by
        constructor
        · simpa using hsucc
        · simpa using hdur
      have heq : healthWatchAux probe dur interval timeout (n' + 1) i e =
          ⟨Verdict.Healthy, e + min (dur i) timeout, i + 1⟩ := by
        rw [healthWatchAux.eq_def]
        simp only []
        rw [if_pos hcond]
      rw [heq]
      refine ⟨rfl, by simp, ?_⟩
      show e + min (dur i) timeout ≤ e + 0 * (interval + timeout) + timeout
      have : min (dur i) timeout ≤ timeout := Nat.min_le_right _ _
      omega
  | succ k ih =>
      intro n i e hk hfail hsucc hdur
      obtain ⟨m, rfl⟩ : ∃ m, n = m + 1 + 1 := ⟨n - 2, by omega⟩
      have hp0 : probe i = false := by simpa using hfail 0 (by omega)
      have hcond : ¬(probe i = true ∧ dur i ≤ timeout) := by simp [hp0]
      have heq : healthWatchAux probe dur interval timeout (m + 1 + 1) i e =
          healthWatchAux probe dur interval timeout (m + 1) (i + 1)
            (e + min (dur i) timeout + interval) := by
        simp [healthWatchAux, hcond]
      rw [heq]
      have hfail' : ∀ j, j < k → probe (i + 1 + j) = false := by
        intro j hj
        have he : i + 1 + j = i + (j + 1) := by ring
        rw [he]
        exact hfail (j + 1) (by omega)
      have hs' : probe (i + 1 + k) = true := by
        have he : i + 1 + k = i + (k + 1) := by ring
        rw [he]; exact hsucc
      have hd' : dur (i + 1 + k) ≤ timeout := by
        have he : i + 1 + k = i + (k + 1) := by ring
        rw [he]; exact hdur
      obtain ⟨hv, ha, hel⟩ :=
        ih (m + 1) (i + 1) (e + min (dur i) timeout + interval) (by omega) hfail' hs' hd'
      refine ⟨hv, by rw [ha]; ring, ?_⟩
      refine le_trans hel ?_
      have hmin : min (dur i) timeout ≤ timeout := Nat.min_le_right _ _
      have hstep : e + min (dur i) timeout + interval + k * (interval + timeout) + timeout ≤
          e + (k + 1) * (interval + timeout) + timeout := by
        have hx : (k + 1) * (interval + timeout) =
            k * (interval + timeout) + interval + timeout := by ring
        rw [hx]
        omega
      exact hstep

/-- C6: the first successful probe attempt yields the verdict Healthy
immediately: a probe succeeding on attempt k+1 stops the watch after exactly
k+1 attempts, within k waits plus the attempt durations, without consuming
the remaining maxAttempts budget. -/
theorem health_gate_first_success_immediate (probe : Nat → Bool) (dur : Nat → Nat)
    (interval timeout maxAttempts k : Nat) (hk : k < maxAttempts)
    (hfail : ∀ j, j < k → probe j = false) (hsucc : probe k = true)
    (hdur : dur k ≤ timeout) :
    (healthWatch probe dur interval timeout maxAttempts).verdict = Verdict.Healthy ∧
    (healthWatch probe dur interval timeout maxAttempts).attemptsUsed = k + 1 ∧
    (healthWatch probe dur interval timeout maxAttempts).attemptsUsed ≤ maxAttempts ∧
    (healthWatch probe dur interval timeout maxAttempts).elapsed ≤
      k * (interval + timeout) + timeout := by
  have h := healthWatchAux_first_success probe dur interval timeout k maxAttempts 0 0 hk
    (by intro j hj; simpa using hfail j hj) (by simpa using hsucc) (by simpa using hdur)
  obtain ⟨hv, ha, hel⟩ := h
  refine ⟨by simpa [healthWatch] using hv, ?_, ?_, by simpa [healthWatch] using hel⟩
  · simpa [healthWatch] using ha
  · have ha0 : (healthWatch probe dur interval timeout maxAttempts).attemptsUsed = k + 1 := by
      simpa [healthWatch] using ha
    omega

/-- Witness: a probe that becomes healthy on its third attempt with the mongo
healthcheck parameters stops after exactly three attempts. -/
theorem health_gate_first_success_immediate_witness :
    (healthWatch (fun i => decide (i = 2)) (fun _ => 3) 10 5 6).verdict =
      Verdict.Healthy ∧
    (healthWatch (fun i => decide (i = 2)) (fun _ => 3) 10 5 6).attemptsUsed = 3 ∧
    (healthWatch (fun i => decide (i = 2)) (fun _ => 3) 10 5 6).attemptsUsed ≤ 6 := by
  have h := health_gate_first_success_immediate (fun i => decide (i = 2)) (fun _ => 3)
    10 5 6 2 (by omega) (by decide) (by decide) (by decide)
  exact ⟨h.1, h.2.1, h.2.2.1⟩

/-- C7: the service lifecycle state machine only makes the transitions
Unknown to Starting, Starting to Healthy and Starting to Failed; Healthy and
Failed are terminal, and no event sequence, run cancellation included, leaves
a terminal state. -/
theorem service_lifecycle_state_machine :
    (∀ s e, serviceStep s e = s ∨
      (s = ServiceState.Unknown ∧ serviceStep s e = ServiceState.Starting) ∨
      (s = ServiceState.Starting ∧ serviceStep s e = ServiceState.Healthy) ∨
      (s = ServiceState.Starting ∧ serviceStep s e = ServiceState.Failed)) ∧
    (∀ e, serviceStep ServiceState.Healthy e = ServiceState.Healthy) ∧
    (∀ e, serviceStep ServiceState.Failed e = ServiceState.Failed) ∧
    (∀ evs : List ServiceEvent,
      evs.foldl serviceStep ServiceState.Healthy = ServiceState.Healthy) ∧
    (∀ evs : List ServiceEvent,
      evs.foldl serviceStep ServiceState.Failed = ServiceState.Failed) := by
  refine ⟨?_, ?_, ?_, ?_, ?_⟩
  · intro s e; cases s <;> cases e <;> simp [serviceStep]
  · intro e; cases e <;> rfl
  · intro e; cases e <;> rfl
  · intro evs
    induction evs with
    | nil => rfl
    | cons a t ih =>
        have h : serviceStep ServiceState.Healthy a = ServiceState.Healthy := by
          cases a <;> rfl
        simpa [List.foldl, h] using ih
  · intro evs
    induction evs with
    | nil => rfl
    | cons a t ih =>
        have h : serviceStep ServiceState.Failed a = ServiceState.Failed := by
          cases a <;> rfl
        simpa [List.foldl, h] using ih

/-- C8: the AppModule Mongoose factory returns exactly the default URI when
MONGODB_URI is absent from the environment and the bound value unchanged when
it is present. -/
theorem appmodule_mongo_uri (env : String → Option String) :
    (env mongoUriKey = none →
      mongooseUri env = "mongodb://localhost:27017/tech_challenge") ∧
    (∀ v, env mongoUriKey = some v → mongooseUri env = v) := by
  constructor
  · intro h; simp [mongooseUri, defaultMongoUri, h]
  · intro v h; simp [mongooseUri, h]

/-- Witness: an empty environment falls back to the default URI and a bound
environment returns the bound value. -/
theorem appmodule_mongo_uri_witness :
    mongooseUri (fun _ => none) = "mongodb://localhost:27017/tech_challenge" ∧
    mongooseUri (fun _ => some ("mongodb://root:pw@mongo:27017/tech_challenge")) =
      "mongodb://root:pw@mongo:27017/tech_challenge" :=
  ⟨(appmodule_mongo_uri (fun _ => none)).1 rfl,
   (appmodule_mongo_uri
      (fun _ => some ("mongodb://root:pw@mongo:27017/tech_challenge"))).2 _ rfl⟩

/-- C2: promoting twice under the same identity invokes the producer at most
once in total, both calls return an artifact with identical identity and
payload handle, and a payload stored under an identity never changes. -/
theorem artifact_promoter_idempotent (st : List (String × String)) (id : String)
    (producer : Unit → String) :
    (promote st id producer).producerCalls +
      (promote (promote st id producer).store id producer).producerCalls ≤ 1 ∧
    (promote (promote st id producer).store id producer).artifact =
      (promote st id producer).artifact ∧
    (promote st id producer).artifact.identity = id ∧
    lookupArtifact (promote st id producer).store id =
      some (promote st id producer).artifact.payload ∧
    (∀ x p, lookupArtifact st x = some p →
      lookupArtifact (promote st id producer).store x = some p) := by
  cases h : lookupArtifact st id with
  | some p =>
      refine ⟨?_, ?_, ?_, ?_, ?_⟩ <;>
        simp [promote, h]
  | none =>
      have hsecond : lookupArtifact ((id, producer ()) :: st) id = some (producer ()) := by
        simp [lookupArtifact, List.find?]
      refine ⟨?_, ?_, ?_, ?_, ?_⟩
      · simp [promote, h, hsecond]
      · simp [promote, h, hsecond]
      · simp [promote, h]
      · simp [promote, h, hsecond]
      · intro x p hx
        have hne : x ≠ id := by
          intro he; rw [he] at hx; rw [h] at hx; exact Option.noConfusion hx
        have hbeq : (id == x) = false := beq_eq_false_iff_ne.mpr (fun he => hne he.symm)
        have hstore : (promote st id producer).store = (id, producer ()) :: st := by
          simp [promote, h]
        have hskip : lookupArtifact ((id, producer ()) :: st) x = lookupArtifact st x := by
          simp [lookupArtifact, List.find?, hbeq]
        rw [hstore, hskip]
        exact hx

/-- Witness: promoting a fresh identity twice leaves a previously stored
payload untouched. -/
theorem artifact_promoter_idempotent_witness :
    (promote [("base", "sha0")] ("img") (fun _ => "sha1")).producerCalls +
      (promote (promote [("base", "sha0")] ("img") (fun _ => "sha1")).store ("img")
        (fun _ => "sha1")).producerCalls ≤ 1 ∧
    lookupArtifact (promote [("base", "sha0")] ("img") (fun _ => "sha1")).store
      ("base") = some ("sha0") := by
  have h := artifact_promoter_idempotent [("base", "sha0")] ("img") (fun _ => "sha1")
  exact ⟨h.1, h.2.2.2.2 ("base") ("sha0") (by rfl)⟩

/-- C10: VisitsService.create stores exactly the provided visit_dt, ip and
user_agent when all three are present, and rejects the creation without
storing anything when any required field is missing. -/
theorem visits_create_required_fields (store : List Visit) (dto : CreateVisitDto) :
    (∀ dt ipv ua, dto.visit_dt = some dt → dto.ip = some ipv → dto.user_agent = some ua →
      visitsCreate store dto = Except.ok (⟨dt, ipv, ua⟩, store ++ [⟨dt, ipv, ua⟩])) ∧
    ((dto.visit_dt = none ∨ dto.ip = none ∨ dto.user_agent = none) →
      ∃ f, visitsCreate store dto = Except.error (ValidationError.missingRequired f)) ∧
    ((dto.visit_dt = none ∨ dto.ip = none ∨ dto.user_agent = none) →
      ∀ r, visitsCreate store dto ≠ Except.ok r) := by
  have hmiss : (dto.visit_dt = none ∨ dto.ip = none ∨ dto.user_agent = none) →
      ∃ f, visitsCreate store dto = Except.error (ValidationError.missingRequired f) := by
    intro h
    rcases dto with ⟨odt, oip, oua⟩
    cases odt with
    | none => exact ⟨"visit_dt", by simp [visitsCreate, validateVisit]⟩
    | some dt =>
      cases oip with
      | none => exact ⟨"ip", by simp [visitsCreate, validateVisit]⟩
      | some ipv =>
        cases oua with
        | none => exact ⟨"user_agent", by simp [visitsCreate, validateVisit]⟩
        | some ua => simp at h
  refine ⟨?_, hmiss, ?_⟩
  · intro dt ipv ua h1 h2 h3
    simp [visitsCreate, validateVisit, h1, h2, h3]
  · intro h r hok
    obtain ⟨f, hf⟩ := hmiss h
    rw [hf] at hok
    exact Except.noConfusion hok

/-- Witness: a complete input is stored verbatim and an input missing its ip
is rejected. -/
theorem visits_create_required_fields_witness :
    visitsCreate [] ⟨some 5, some ("10.0.0.1"), some ("Mozilla")⟩ =
      Except.ok (⟨5, "10.0.0.1", "Mozilla"⟩, [⟨5, "10.0.0.1", "Mozilla"⟩]) ∧
    (∃ f, visitsCreate [] ⟨some 5, none, some ("Mozilla")⟩ =
      Except.error (ValidationError.missingRequired f)) := by
  have h1 := visits_create_required_fields [] ⟨some 5, some ("10.0.0.1"), some ("Mozilla")⟩
  have h2 := visits_create_required_fields [] ⟨some 5, none, some ("Mozilla")⟩
  constructor
  · have := h1.1 5 ("10.0.0.1") ("Mozilla") rfl rfl rfl
    simpa using this
  · exact h2.2.1 (Or.inr (Or.inl rfl))

/-- C9: the VPC module creates exactly two private subnets whose CIDR blocks
cidrsubnet of 10.0.0.0/16 with 4 new bits and netnums 0 and 1 are the
disjoint /20 ranges 10.0.0.0/20 and 10.0.16.0/20, both contained in the VPC
block 10.0.0.0/16. -/
theorem vpc_private_subnets_disjoint_within_vpc :
    privateSubnets.length = 2 ∧
    privateSubnets = [⟨ipv4 10 0 0 0, 20⟩, ⟨ipv4 10 0 16 0, 20⟩] ∧
    Disjoint (addrRange (cidrsubnet vpcMain 4 0)) (addrRange (cidrsubnet vpcMain 4 1)) ∧
    addrRange (cidrsubnet vpcMain 4 0) ⊆ addrRange vpcMain ∧
    addrRange (cidrsubnet vpcMain 4 1) ⊆ addrRange vpcMain := by
  have e0 : addrRange (cidrsubnet vpcMain 4 0) = Set.Ico 167772160 167776256 := by
    norm_num [addrRange, cidrsubnet, vpcMain, ipv4]
  have e1 : addrRange (cidrsubnet vpcMain 4 1) = Set.Ico 167776256 167780352 := by
    norm_num [addrRange, cidrsubnet, vpcMain, ipv4]
  have ev : addrRange vpcMain = Set.Ico 167772160 167837696 := by
    norm_num [addrRange, vpcMain, ipv4]
  refine ⟨rfl, by decide, ?_, ?_, ?_⟩
  · rw [e0, e1]
    rw [Set.Ico_disjoint_Ico]
    norm_num
  · rw [e0, ev]
    exact Set.Ico_subset_Ico (by norm_num) (by norm_num)
  · rw [e1, ev]
    exact Set.Ico_subset_Ico (by norm_num) (by norm_num)

/-- Unfolding equation of the resolver loop at fuel zero. -/
theorem resolveAux_zero (done : List String) (pending : List Stage) :
    resolveAux 0 done pending =
      if pending.isEmpty then Except.ok [] else
        Except.error (ResolveError.CycleError (stageIds pending)) := rfl

/-- Unfolding equation of the resolver loop at positive fuel. -/
theorem resolveAux_succ (fuel : Nat) (done : List String) (pending : List Stage) :
    resolveAux (fuel + 1) done pending =
      if pending.isEmpty then Except.ok []
      else
        if (pending.filter (stageReady done)).isEmpty then
          Except.error (ResolveError.CycleError (stageIds pending))
        else
          (resolveAux fuel (done ++ stageIds (pending.filter (stageReady done)))
              (pending.filter (fun s => !stageReady done s))).map
            (fun lvls => stageIds (pending.filter (stageReady done)) :: lvls) := rfl

/-- Readiness means every dependency is done. -/
theorem stageReady_iff (done : List String) (s : Stage) :
    stageReady done s = true ↔ ∀ d ∈ s.deps, d ∈ done := by
  simp [stageReady]

/-- Every pending stage lands in the ready part or in the rest. -/
theorem mem_ready_or_rest {done : List String} {pending : List Stage} {s : Stage}
    (hs : s ∈ pending) :
    s ∈ pending.filter (stageReady done) ∨
      s ∈ pending.filter (fun t => !stageReady done t) := by
  by_cases h : stageReady done s = true
  · exact Or.inl (List.mem_filter.mpr ⟨hs, h⟩)
  · exact Or.inr (List.mem_filter.mpr ⟨hs, by simp [h]⟩)

/-- The flattened levels of a successful resolver run are a permutation of
the pending stage ids. -/
theorem resolveAux_ok_perm :
    ∀ (fuel : Nat) (done : List String) (pending : List Stage)
      (lvls : List (List String)),
      resolveAux fuel done pending = Except.ok lvls →
      lvls.flatten.Perm (stageIds pending) := by
  intro fuel
  induction fuel with
  | zero =>
      intro done pending lvls h
      rw [resolveAux_zero] at h
      by_cases hp : pending.isEmpty = true
      · rw [if_pos hp] at h
        have hl : lvls = [] := by
          injection h with h
          exact h.symm
        have hpe : pending = [] := List.isEmpty_iff.mp hp
        subst hl; subst hpe; simp [stageIds]
      · rw [if_neg hp] at h; exact Except.noConfusion h
  | succ fuel ih =>
      intro done pending lvls h
      rw [resolveAux_succ] at h
      by_cases hp : pending.isEmpty = true
      · rw [if_pos hp] at h
        have hl : lvls = [] := by
          injection h with h
          exact h.symm
        have hpe : pending = [] := List.isEmpty_iff.mp hp
        subst hl; subst hpe; simp [stageIds]
      · rw [if_neg hp] at h
        by_cases hr : (pending.filter (stageReady done)).isEmpty = true
        · rw [if_pos hr] at h; exact Except.noConfusion h
        · rw [if_neg hr] at h
          cases hrec : resolveAux fuel (done ++ stageIds (pending.filter (stageReady done)))
              (pending.filter (fun s => !stageReady done s)) with
          | error e => rw [hrec] at h; exact Except.noConfusion h
          | ok lvls' =>
              rw [hrec] at h
              have hl : lvls = stageIds (pending.filter (stageReady done)) :: lvls' := by
                injection h with h
                exact h.symm
              subst hl
              have hperm := ih _ _ _ hrec
              have h1 : ((pending.filter (stageReady done)) ++
                  (pending.filter (fun s => !stageReady done s))).Perm pending :=
                List.filter_append_perm (stageReady done) pending
              have h2 : (stageIds (pending.filter (stageReady done)) ++
                  stageIds (pending.filter (fun s => !stageReady done s))).Perm
                    (stageIds pending) := by
                have := h1.map (fun s => s.id)
                simpa [stageIds] using this
              have h3 : List.Perm
                  (stageIds (pending.filter (stageReady done)) ++ lvls'.flatten)
                  (stageIds pending) :=
                (List.Perm.append_left _ hperm).trans h2
              simpa [List.flatten_cons] using h3

/-- Every pending stage of a successful resolver run appears in some level,
with all its dependencies satisfied by the accumulator or strictly earlier
levels. -/
theorem resolveAux_ok_deps_earlier :
    ∀ (fuel : Nat) (done : List String) (pending : List Stage)
      (lvls : List (List String)),
      resolveAux fuel done pending = Except.ok lvls →
      ∀ s ∈ pending, ∃ pre lvl suf, lvls = pre ++ lvl :: suf ∧ s.id ∈ lvl ∧
        ∀ d ∈ s.deps, d ∈ done ++ pre.flatten := by
  intro fuel
  induction fuel with
  | zero =>
      intro done pending lvls h s hs
      rw [resolveAux_zero] at h
      by_cases hp : pending.isEmpty = true
      · have hpe : pending = [] := List.isEmpty_iff.mp hp
        rw [hpe] at hs
        exact absurd hs (List.not_mem_nil s)
      · rw [if_neg hp] at h; exact Except.noConfusion h
  | succ fuel ih =>
      intro done pending lvls h s hs
      rw [resolveAux_succ] at h
      by_cases hp : pending.isEmpty = true
      · have hpe : pending = [] := List.isEmpty_iff.mp hp
        rw [hpe] at hs
        exact absurd hs (List.not_mem_nil s)
      · rw [if_neg hp] at h
        by_cases hr : (pending.filter (stageReady done)).isEmpty = true
        · rw [if_pos hr] at h; exact Except.noConfusion h
        · rw [if_neg hr] at h
          cases hrec : resolveAux fuel (done ++ stageIds (pending.filter (stageReady done)))
              (pending.filter (fun s => !stageReady done s)) with
          | error e => rw [hrec] at h; exact Except.noConfusion h
          | ok lvls' =>
              rw [hrec] at h
              have hl : lvls = stageIds (pending.filter (stageReady done)) :: lvls' := by
                injection h with h
                exact h.symm
              subst hl
              rcases @mem_ready_or_rest done _ _ hs with hready | hrest
              · refine ⟨[], stageIds (pending.filter (stageReady done)), lvls', rfl,
                  List.mem_map.mpr ⟨s, hready, rfl⟩, ?_⟩
                intro d hd
                have hrd : stageReady done s = true := (List.mem_filter.mp hready).2
                have := (stageReady_iff done s).mp hrd d hd
                simpa using this
              · obtain ⟨pre, lvl, suf, heq, hmem, hdeps⟩ := ih _ _ _ hrec s hrest
                refine ⟨stageIds (pending.filter (stageReady done)) :: pre, lvl, suf, ?_,
                  hmem, ?_⟩
                · rw [heq]; rfl
                · intro d hd
                  have := hdeps d hd
                  simp only [List.flatten_cons, List.mem_append] at this ⊢
                  tauto

/-- Maximality: a pending stage whose dependencies are all satisfied by the
accumulator or the levels before a given level of a successful run appears no
later than that level. -/
theorem resolveAux_ok_maximal :
    ∀ (fuel : Nat) (done : List String) (pending : List Stage)
      (lvls : List (List String)),
      resolveAux fuel done pending = Except.ok lvls →
      ∀ pre lvl suf, lvls = pre ++ lvl :: suf →
      ∀ s ∈ pending, s.id ∉ pre.flatten →
      (∀ d ∈ s.deps, d ∈ done ++ pre.flatten) → s.id ∈ lvl := by
  intro fuel
  induction fuel with
  | zero =>
      intro done pending lvls h pre lvl suf heq s hs hnot hdeps
      rw [resolveAux_zero] at h
      by_cases hp : pending.isEmpty = true
      · have hpe : pending = [] := List.isEmpty_iff.mp hp
        rw [hpe] at hs
        exact absurd hs (List.not_mem_nil s)
      · rw [if_neg hp] at h; exact Except.noConfusion h
  | succ fuel ih =>
      intro done pending lvls h pre lvl suf heq s hs hnot hdeps
      rw [resolveAux_succ] at h
      by_cases hp : pending.isEmpty = true
      · have hpe : pending = [] := List.isEmpty_iff.mp hp
        rw [hpe] at hs
        exact absurd hs (List.not_mem_nil s)
      · rw [if_neg hp] at h
        by_cases hr : (pending.filter (stageReady done)).isEmpty = true
        · rw [if_pos hr] at h; exact Except.noConfusion h
        · rw [if_neg hr] at h
          cases hrec : resolveAux fuel (done ++ stageIds (pending.filter (stageReady done)))
              (pending.filter (fun s => !stageReady done s)) with
          | error e => rw [hrec] at h; exact Except.noConfusion h
          | ok lvls' =>
              rw [hrec] at h
              have hl : lvls = stageIds (pending.filter (stageReady done)) :: lvls' := by
                injection h with h
                exact h.symm
              subst hl
              cases pre with
              | nil =>
                  have hlv : lvl = stageIds (pending.filter (stageReady done)) := by
                    injection heq.symm with h1 h2
                  have hrd : stageReady done s = true := by
                    rw [stageReady_iff]
                    intro d hd
                    have := hdeps d hd
                    simpa using this
                  rw [hlv]
                  exact List.mem_map.mpr ⟨s, List.mem_filter.mpr ⟨hs, hrd⟩, rfl⟩
              | cons q pre' =>
                  have hq : q = stageIds (pending.filter (stageReady done)) ∧
                      lvls' = pre' ++ lvl :: suf := by
                    have heq' : stageIds (pending.filter (stageReady done)) :: lvls' =
                        q :: (pre' ++ lvl :: suf) := heq
                    injection heq' with h1 h2
                    exact ⟨h1.symm, h2⟩
                  obtain ⟨hq1, hq2⟩ := hq
                  subst hq1
                  have hnotin : s.id ∉ stageIds (pending.filter (stageReady done)) ∧
                      s.id ∉ pre'.flatten := by
                    simp only [List.flatten_cons, List.mem_append] at hnot
                    tauto
                  rcases @mem_ready_or_rest done _ _ hs with hready | hrest
                  · exact absurd (List.mem_map.mpr ⟨s, hready, rfl⟩) hnotin.1
                  · refine ih _ _ _ hrec pre' lvl suf hq2 s hrest hnotin.2 ?_
                    intro d hd
                    have := hdeps d hd
                    simp only [List.flatten_cons, List.mem_append] at this ⊢
                    tauto

/-- A nonempty list of stages has one minimizing any numeric measure. -/
theorem exists_min_stage (f : Stage → Nat) :
    ∀ (l : List Stage), l ≠ [] → ∃ s ∈ l, ∀ t ∈ l, f s ≤ f t := by
  intro l
  induction l with
  | nil => intro h; exact absurd rfl h
  | cons a t ih =>
      intro _
      cases t with
      | nil =>
          refine ⟨a, by simp, ?_⟩
          intro t ht
          have : t = a := by simpa using ht
          rw [this]
      | cons b u =>
          obtain ⟨s, hs, hmin⟩ := ih (by simp)
          by_cases hle : f a ≤ f s
          · refine ⟨a, by simp, ?_⟩
            intro t ht
            rcases List.mem_cons.mp ht with h | h
            · rw [h]
            · exact le_trans hle (hmin t h)
          · refine ⟨s, List.mem_cons.mpr (Or.inr hs), ?_⟩
            intro t ht
            rcases List.mem_cons.mp ht with h | h
            · rw [h]; exact le_of_lt (Nat.lt_of_not_le hle)
            · exact hmin t h

/-- The resolver loop succeeds on every dangling-free stage set that admits a
rank strictly decreasing along internal dependency edges, given enough fuel. -/
theorem resolveAux_complete :
    ∀ (fuel : Nat) (done : List String) (pending : List Stage) (rnk : String → Nat),
      pending.length ≤ fuel →
      (∀ s ∈ pending, ∀ d ∈ s.deps, d ∈ done ∨ d ∈ stageIds pending) →
      (∀ s ∈ pending, ∀ d ∈ s.deps, d ∈ stageIds pending → rnk d < rnk s.id) →
      ∃ lvls, resolveAux fuel done pending = Except.ok lvls := by
  intro fuel
  induction fuel with
  | zero =>
      intro done pending rnk hlen _ _
      have hpe : pending = [] := List.length_eq_zero.mp (Nat.le_zero.mp hlen)
      subst hpe
      exact ⟨[], by rw [resolveAux_zero]; rfl⟩
  | succ fuel ih =>
      intro done pending rnk hlen hclosed hrnk
      by_cases hp : pending.isEmpty = true
      · exact ⟨[], by rw [resolveAux_succ, if_pos hp]⟩
      · have hpne : pending ≠ [] := fun he => by simp [he] at hp
        obtain ⟨s, hs, hmin⟩ := exists_min_stage (fun t => rnk t.id) pending hpne
        have hready : stageReady done s = true := by
          rw [stageReady_iff]
          intro d hd
          rcases hclosed s hs d hd with h | h
          · exact h
          · exfalso
            obtain ⟨t, ht, htid⟩ := List.mem_map.mp h
            have h1 : rnk d < rnk s.id := hrnk s hs d hd h
            have h2 : rnk s.id ≤ rnk t.id := hmin t ht
            rw [htid] at h2
            omega
        have hsready : s ∈ pending.filter (stageReady done) :=
          List.mem_filter.mpr ⟨hs, hready⟩
        have hrne : ¬((pending.filter (stageReady done)).isEmpty = true) := by
          rw [List.isEmpty_iff]
          exact List.ne_nil_of_mem hsready
        have hmem_split : ∀ d, d ∈ stageIds pending ↔
            d ∈ stageIds (pending.filter (stageReady done)) ∨
            d ∈ stageIds (pending.filter (fun t => !stageReady done t)) := by
          intro d
          have hperm := (List.filter_append_perm (stageReady done) pending).map
            (fun t => t.id)
          rw [stageIds, ← hperm.mem_iff]
          simp [stageIds]
        have hlenr : (pending.filter (fun t => !stageReady done t)).length ≤ fuel := by
          have hsum := (List.filter_append_perm (stageReady done) pending).length_eq
          rw [List.length_append] at hsum
          have h1 : 0 < (pending.filter (stageReady done)).length :=
            List.length_pos.mpr (List.ne_nil_of_mem hsready)
          omega
        have hclosed' : ∀ t ∈ pending.filter (fun t => !stageReady done t),
            ∀ d ∈ t.deps,
            d ∈ done ++ stageIds (pending.filter (stageReady done)) ∨
            d ∈ stageIds (pending.filter (fun t => !stageReady done t)) := by
          intro t ht d hd
          have htp : t ∈ pending := (List.mem_filter.mp ht).1
          rcases hclosed t htp d hd with h | h
          · exact Or.inl (List.mem_append.mpr (Or.inl h))
          · rcases (hmem_split d).mp h with h | h
            · exact Or.inl (List.mem_append.mpr (Or.inr h))
            · exact Or.inr h
        have hrnk' : ∀ t ∈ pending.filter (fun t => !stageReady done t),
            ∀ d ∈ t.deps,
            d ∈ stageIds (pending.filter (fun t => !stageReady done t)) →
            rnk d < rnk t.id := by
          intro t ht d hd hdr
          exact hrnk t (List.mem_filter.mp ht).1 d hd ((hmem_split d).mpr (Or.inr hdr))
        obtain ⟨lvls', hrec⟩ := ih (done ++ stageIds (pending.filter (stageReady done)))
          (pending.filter (fun t => !stageReady done t)) rnk hlenr hclosed' hrnk'
        refine ⟨stageIds (pending.filter (stageReady done)) :: lvls', ?_⟩
        rw [resolveAux_succ, if_neg hp, if_neg hrne, hrec]
        rfl

/-- The missing-dependency list is empty exactly when every dependency id
names a stage. -/
theorem missingDeps_nil_iff (stages : List Stage) :
    missingDeps stages = [] ↔ ∀ s ∈ stages, ∀ d ∈ s.deps, d ∈ stageIds stages := by
  rw [missingDeps, List.flatten_eq_nil_iff]
  constructor
  · intro h s hs d hd
    have := h (s.deps.filter (fun d => !(stageIds stages).contains d))
      (List.mem_map.mpr ⟨s, hs, rfl⟩)
    rw [List.filter_eq_nil_iff] at this
    have hd2 := this d hd
    simpa using hd2
  · intro h l hl
    obtain ⟨s, hs, rfl⟩ := List.mem_map.mp hl
    rw [List.filter_eq_nil_iff]
    intro d hd
    simpa using h s hs d hd

/-- The resolver succeeds on every dangling-free acyclic stage set. -/
theorem resolve_ok_exists (stages : List Stage)
    (hclosed : ∀ s ∈ stages, ∀ d ∈ s.deps, d ∈ stageIds stages)
    (hacyc : Acyclic stages) :
    ∃ lvls, resolve stages = Except.ok lvls ∧
      resolveAux stages.length [] stages = Except.ok lvls := by
  obtain ⟨rnk, hrnk⟩ := hacyc
  obtain ⟨lvls, h⟩ := resolveAux_complete stages.length [] stages rnk (le_refl _)
    (fun s hs d hd => Or.inr (hclosed s hs d hd))
    (fun s hs d hd _ => hrnk s hs d hd)
  refine ⟨lvls, ?_, h⟩
  rw [resolve, if_pos (by rw [List.isEmpty_iff]; exact (missingDeps_nil_iff stages).mpr hclosed)]
  exact h

/-- C1: for every acyclic stage set respecting the data-model invariants
(unique ids, all dependency ids existing), the Graph Resolver returns levels
in which every stage appears in exactly one level, every dependency of a
stage lies in a strictly earlier level, and each level is maximal: any stage
whose dependencies are all satisfied by the levels before some level appears
no later than that level. -/
theorem graph_resolver_levels_correct (stages : List Stage)
    (hids : (stageIds stages).Nodup)
    (hclosed : ∀ s ∈ stages, ∀ d ∈ s.deps, d ∈ stageIds stages)
    (hacyc : Acyclic stages) :
    ∃ lvls, resolve stages = Except.ok lvls ∧
      (∀ s ∈ stages, lvls.flatten.count s.id = 1) ∧
      (∀ s ∈ stages, ∃ pre lvl suf, lvls = pre ++ lvl :: suf ∧ s.id ∈ lvl ∧
        ∀ d ∈ s.deps, d ∈ pre.flatten) ∧
      (∀ pre lvl suf, lvls = pre ++ lvl :: suf → ∀ s ∈ stages, s.id ∉ pre.flatten →
        (∀ d ∈ s.deps, d ∈ pre.flatten) → s.id ∈ lvl) := by
  obtain ⟨lvls, hok, haux⟩ := resolve_ok_exists stages hclosed hacyc
  refine ⟨lvls, hok, ?_, ?_, ?_⟩
  · intro s hs
    have hperm := resolveAux_ok_perm _ _ _ _ haux
    have hmem : s.id ∈ stageIds stages := List.mem_map.mpr ⟨s, hs, rfl⟩
    rw [hperm.count_eq]
    exact List.count_eq_one_of_mem hids hmem
  · intro s hs
    obtain ⟨pre, lvl, suf, h1, h2, h3⟩ := resolveAux_ok_deps_earlier _ _ _ _ haux s hs
    exact ⟨pre, lvl, suf, h1, h2, fun d hd => by simpa using h3 d hd⟩
  · intro pre lvl suf heq s hs hnot hdeps
    exact resolveAux_ok_maximal _ _ _ _ haux pre lvl suf heq s hs hnot
      (fun d hd => by simpa using hdeps d hd)

/-- Witness: the resolver on the compose topology, with the data-model
invariants and acyclicity discharged concretely. -/
theorem graph_resolver_levels_correct_witness :
    ∃ lvls, resolve demoOkStages = Except.ok lvls ∧
      (∀ s ∈ demoOkStages, lvls.flatten.count s.id = 1) := by
  obtain ⟨lvls, hok, hcount, _, _⟩ := graph_resolver_levels_correct demoOkStages
    (by decide) (by decide) ⟨demoOkRank, by decide⟩
  exact ⟨lvls, hok, hcount⟩

/-- An id inside a given level, absent from the earlier ones, has exactly
that level index as its rank. -/
theorem lvlRank_concat_of_mem :
    ∀ (pre : List (List String)) (lvl : List String) (suf : List (List String))
      (x : String), x ∈ lvl → x ∉ pre.flatten →
      lvlRank (pre ++ lvl :: suf) x = pre.length := by
  intro pre
  induction pre with
  | nil =>
      intro lvl suf x hx _
      have hc : lvl.contains x = true := by simpa using hx
      simp [lvlRank, List.findIdx_cons, hc, hx]
  | cons q pre' ihp =>
      intro lvl suf x hx hnot
      have hnq : x ∉ q ∧ x ∉ pre'.flatten := by
        simp only [List.flatten_cons, List.mem_append] at hnot
        tauto
      have hcq : q.contains x = false := by
        by_cases hmm : x ∈ q
        · exact absurd hmm hnq.1
        · simpa using hmm
      have hrec := ihp lvl suf x hx hnq.2
      rw [lvlRank] at hrec ⊢
      rw [List.cons_append, List.findIdx_cons, hcq]
      simp only [cond_false]
      rw [hrec]
      rfl

/-- An id occurring in the earlier levels has rank below their count. -/
theorem lvlRank_lt_of_mem_flatten :
    ∀ (pre rest : List (List String)) (x : String), x ∈ pre.flatten →
      lvlRank (pre ++ rest) x < pre.length := by
  intro pre
  induction pre with
  | nil => intro rest x hx; simp at hx
  | cons q pre' ihp =>
      intro rest x hx
      by_cases hq : x ∈ q
      · have hcq : q.contains x = true := by simpa using hq
        rw [lvlRank, List.cons_append, List.findIdx_cons, hcq]
        simp
      · have hx' : x ∈ pre'.flatten := by
          simp only [List.flatten_cons, List.mem_append] at hx
          tauto
        have hcq : q.contains x = false := by simpa using hq
        have hrec := ihp rest x hx'
        rw [lvlRank] at hrec ⊢
        rw [List.cons_append, List.findIdx_cons, hcq]
        simp only [cond_false, List.length_cons]
        omega

/-- On a successful resolver run with unique ids, every dependency edge
strictly decreases the level rank. -/
theorem resolveAux_ok_edge_rank (stages : List Stage) (lvls : List (List String))
    (hids : (stageIds stages).Nodup)
    (haux : resolveAux stages.length [] stages = Except.ok lvls) :
    ∀ a b, DepEdge stages a b → lvlRank lvls b < lvlRank lvls a := by
  rintro a b ⟨s, hs, hid, hb⟩
  obtain ⟨pre, lvl, suf, heq, hmem, hdeps⟩ :=
    resolveAux_ok_deps_earlier _ _ _ _ haux s hs
  have hbpre : b ∈ pre.flatten := by simpa using hdeps b hb
  have hnodup : lvls.flatten.Nodup := by
    have hperm := resolveAux_ok_perm _ _ _ _ haux
    exact hperm.nodup_iff.mpr hids
  have hanot : s.id ∉ pre.flatten := by
    rw [heq, List.flatten_append pre (lvl :: suf)] at hnodup
    have hdisj := List.disjoint_of_nodup_append hnodup
    intro hmem2
    exact hdisj hmem2 (by rw [List.flatten_cons]; exact List.mem_append.mpr (Or.inl hmem))
  rw [heq, ← hid]
  rw [lvlRank_concat_of_mem pre lvl suf s.id hmem hanot]
  exact lvlRank_lt_of_mem_flatten pre (lvl :: suf) b hbpre

/-- On a successful resolver run with unique ids, every transitive dependency
strictly decreases the level rank, so the graph has no cycle. -/
theorem resolveAux_ok_no_cycle (stages : List Stage) (lvls : List (List String))
    (hids : (stageIds stages).Nodup)
    (haux : resolveAux stages.length [] stages = Except.ok lvls) :
    ¬HasCycle stages := by
  have hpath : ∀ a b, DepPath stages a b → lvlRank lvls b < lvlRank lvls a := by
    intro a b hp
    induction hp with
    | direct h => exact resolveAux_ok_edge_rank stages lvls hids haux _ _ h
    | step h _ ih =>
        have h1 := resolveAux_ok_edge_rank stages lvls hids haux _ _ h
        omega
  rintro ⟨a, hp⟩
  exact lt_irrefl _ (hpath a a hp)

/-- The resolver loop only ever reports cycle errors. -/
theorem resolveAux_error_cycle :
    ∀ (fuel : Nat) (done : List String) (pending : List Stage) (e : ResolveError),
      resolveAux fuel done pending = Except.error e →
      ∃ rem, e = ResolveError.CycleError rem := by
  intro fuel
  induction fuel with
  | zero =>
      intro done pending e h
      rw [resolveAux_zero] at h
      by_cases hp : pending.isEmpty = true
      · rw [if_pos hp] at h; exact Except.noConfusion h
      · rw [if_neg hp] at h
        refine ⟨stageIds pending, ?_⟩
        injection h with h
        exact h.symm
  | succ fuel ih =>
      intro done pending e h
      rw [resolveAux_succ] at h
      by_cases hp : pending.isEmpty = true
      · rw [if_pos hp] at h; exact Except.noConfusion h
      · rw [if_neg hp] at h
        by_cases hr : (pending.filter (stageReady done)).isEmpty = true
        · rw [if_pos hr] at h
          refine ⟨stageIds pending, ?_⟩
          injection h with h
          exact h.symm
        · rw [if_neg hr] at h
          cases hrec : resolveAux fuel (done ++ stageIds (pending.filter (stageReady done)))
              (pending.filter (fun s => !stageReady done s)) with
          | error e2 =>
              rw [hrec] at h
              have he : e2 = e := by simpa [Except.map] using h
              subst he
              exact ih _ _ _ hrec
          | ok lvls' => rw [hrec] at h; exact Except.noConfusion h

/-- A graph with a dangling reference is rejected with the dangling error. -/
theorem resolve_dangling (stages : List Stage) (hd : HasDangling stages) :
    resolve stages =
      Except.error (ResolveError.DanglingReferenceError (missingDeps stages)) := by
  have hne : missingDeps stages ≠ [] := by
    intro h
    obtain ⟨s, hs, d, hdm, hnot⟩ := hd
    exact hnot ((missingDeps_nil_iff stages).mp h s hs d hdm)
  rw [resolve, if_neg (by rw [List.isEmpty_iff]; exact hne)]

/-- A dangling-free graph with a cycle is rejected with a cycle error. -/
theorem resolve_cycle (stages : List Stage) (hids : (stageIds stages).Nodup)
    (hnd : ¬HasDangling stages) (hc : HasCycle stages) :
    ∃ rem, resolve stages = Except.error (ResolveError.CycleError rem) := by
  have hclosed : ∀ s ∈ stages, ∀ d ∈ s.deps, d ∈ stageIds stages := by
    intro s hs d hd
    by_contra hn
    exact hnd ⟨s, hs, d, hd, hn⟩
  have hmiss : (missingDeps stages).isEmpty = true := by
    rw [List.isEmpty_iff]; exact (missingDeps_nil_iff _).mpr hclosed
  cases haux : resolveAux stages.length [] stages with
  | ok lvls => exact absurd hc (resolveAux_ok_no_cycle stages lvls hids haux)
  | error e =>
      obtain ⟨rem, rfl⟩ := resolveAux_error_cycle _ _ _ _ haux
      exact ⟨rem, by rw [resolve, if_pos hmiss, haux]⟩

/-- C4: a graph with a cycle or a dangling dependency reference fails
resolution with CycleError respectively DanglingReferenceError, no stage
executes, and the exit code surfaced to the caller is 2. -/
theorem invalid_graph_rejected (stages : List Stage) (action : String → Bool)
    (hids : (stageIds stages).Nodup) :
    (HasDangling stages →
      resolve stages =
        Except.error (ResolveError.DanglingReferenceError (missingDeps stages))) ∧
    (¬HasDangling stages → HasCycle stages →
      ∃ rem, resolve stages = Except.error (ResolveError.CycleError rem)) ∧
    ((HasDangling stages ∨ HasCycle stages) →
      (applyRun action stages).exitCode = 2 ∧
      (∀ id, (applyRun action stages).invoked id = false) ∧
      (∀ id, (applyRun action stages).status id = none)) := by
  refine ⟨fun hd => resolve_dangling stages hd,
    fun hnd hc => resolve_cycle stages hids hnd hc, ?_⟩
  intro hor
  have herr : ∃ e, resolve stages = Except.error e := by
    by_cases hd : HasDangling stages
    · exact ⟨_, resolve_dangling stages hd⟩
    · rcases hor with h | h
      · exact absurd h hd
      · obtain ⟨rem, hre⟩ := resolve_cycle stages hids hd h
        exact ⟨_, hre⟩
  obtain ⟨e, he⟩ := herr
  have happ : applyRun action stages = ⟨2, fun _ => none, fun _ => false⟩ := by
    simp [applyRun, he]
  rw [happ]
  exact ⟨rfl, fun _ => rfl, fun _ => rfl⟩

/-- Witness: a dangling-reference graph and a two-stage cycle, both rejected
before any stage runs, with exit code 2. -/
theorem invalid_graph_rejected_witness :
    resolve demoDanglingStages =
      Except.error (ResolveError.DanglingReferenceError (missingDeps demoDanglingStages)) ∧
    (∃ rem, resolve demoCycleStages = Except.error (ResolveError.CycleError rem)) ∧
    (applyRun demoAction demoCycleStages).exitCode = 2 ∧
    (applyRun demoAction demoCycleStages).invoked ("a") = false := by
  have h1 := invalid_graph_rejected demoDanglingStages demoAction (by decide)
  have h2 := invalid_graph_rejected demoCycleStages demoAction (by decide)
  have hdang : HasDangling demoDanglingStages := by unfold HasDangling; decide
  have hnd : ¬HasDangling demoCycleStages := by unfold HasDangling; decide
  have hcyc : HasCycle demoCycleStages := by
    have e1 : DepEdge demoCycleStages ("a") ("b") :=
      ⟨⟨"a", ["b"]⟩, by simp [demoCycleStages], rfl, by simp⟩
    have e2 : DepEdge demoCycleStages ("b") ("a") :=
      ⟨⟨"b", ["a"]⟩, by simp [demoCycleStages], rfl, by simp⟩
    exact ⟨"a", DepPath.step e1 (DepPath.direct e2)⟩
  exact ⟨h1.1 hdang, h2.2.1 hnd hcyc, (h2.2.2 (Or.inr hcyc)).1,
    (h2.2.2 (Or.inr hcyc)).2.1 ("a")⟩

/-- A level update leaves ids outside the level untouched. -/
theorem levelUpdate_not_mem (action : String → Bool) (stages : List Stage)
    (recs : String → Option Status) (lvl : List String) (x : String) (hx : x ∉ lvl) :
    levelUpdate action stages recs lvl x = recs x := by
  have hc : lvl.contains x = false := by simpa using hx
  simp [levelUpdate, hc, hx]

/-- An invocation update leaves ids outside the level untouched. -/
theorem invokedUpdate_not_mem (action : String → Bool) (stages : List Stage)
    (recs : String → Option Status) (inv : String → Bool) (lvl : List String)
    (x : String) (hx : x ∉ lvl) :
    invokedUpdate action stages recs inv lvl x = inv x := by
  have hc : lvl.contains x = false := by simpa using hx
  simp [invokedUpdate, hc, hx]

/-- With unique ids, looking a stage up by its own id finds that stage. -/
theorem find?_stage :
    ∀ (stages : List Stage), (stageIds stages).Nodup →
      ∀ {s : Stage}, s ∈ stages → stages.find? (fun t => t.id == s.id) = some s := by
  intro stages
  induction stages with
  | nil => intro _ s hs; exact absurd hs (List.not_mem_nil s)
  | cons a l ih =>
      intro hids s hs
      rcases List.mem_cons.mp hs with rfl | hs'
      · exact List.find?_cons_of_pos _ (by simp)
      · have hne : (a.id == s.id) = false := by
          have ha : a.id ∉ stageIds l := by
            have := hids
            rw [stageIds, List.map_cons] at this
            exact (List.nodup_cons.mp this).1
          have hsm : s.id ∈ stageIds l := List.mem_map.mpr ⟨s, hs', rfl⟩
          rw [beq_eq_false_iff_ne]
          intro he
          rw [he] at ha
          exact ha hsm
        rw [List.find?_cons_of_neg _ (by simp [hne])]
        have htl : (stageIds l).Nodup := by
          have := hids
          rw [stageIds, List.map_cons] at this
          exact (List.nodup_cons.mp this).2
        exact ih htl hs'

/-- Every id among the stage ids resolves by lookup to its unique stage. -/
theorem find?_stage_of_mem_ids (stages : List Stage) (hids : (stageIds stages).Nodup)
    {x : String} (hx : x ∈ stageIds stages) :
    ∃ s, s ∈ stages ∧ s.id = x ∧ stages.find? (fun t => t.id == x) = some s := by
  obtain ⟨s, hs, rfl⟩ := List.mem_map.mp hx
  exact ⟨s, hs, rfl, find?_stage stages hids hs⟩

/-- A level update records a stage of the level with its executor outcome. -/
theorem levelUpdate_mem (action : String → Bool) (stages : List Stage)
    (recs : String → Option Status) (lvl : List String) {x : String} {s : Stage}
    (hx : x ∈ lvl) (hfind : stages.find? (fun t => t.id == x) = some s) :
    levelUpdate action stages recs lvl x = some (execStage action recs s).fst := by
  have hc : lvl.contains x = true := by simpa using hx
  simp [levelUpdate, hc, hfind, hx]

/-- An invocation update marks a stage of the level with its executor flag. -/
theorem invokedUpdate_mem (action : String → Bool) (stages : List Stage)
    (recs : String → Option Status) (inv : String → Bool) (lvl : List String)
    {x : String} {s : Stage}
    (hx : x ∈ lvl) (hfind : stages.find? (fun t => t.id == x) = some s) :
    invokedUpdate action stages recs inv lvl x = (execStage action recs s).snd := by
  have hc : lvl.contains x = true := by simpa using hx
  simp [invokedUpdate, hc, hfind, hx]

/-- A member mapped to a value by the scanned function forces the scan to
return some value. -/
theorem findSome?_isSome_of_mem {α β : Type} (f : α → Option β) (l : List α)
    {a : α} {b : β} (ha : a ∈ l) (hb : f a = some b) :
    ∃ c, l.findSome? f = some c := by
  cases h : l.findSome? f with
  | some c => exact ⟨c, rfl⟩
  | none =>
      rw [List.findSome?_eq_none_iff] at h
      rw [h a ha] at hb
      exact Option.noConfusion hb

/-- Case analysis of a dependency verdict. -/
theorem depVerdict_some_cases (recs : String → Option Status) (d c : String)
    (h : depVerdict recs d = some c) :
    (recs d = some Status.Failed ∧ c = d) ∨ recs d = some (Status.Skipped c) := by
  cases hr : recs d with
  | none => simp [depVerdict, hr] at h
  | some st =>
      cases st with
      | Succeeded => simp [depVerdict, hr] at h
      | Failed =>
          simp [depVerdict, hr] at h
          exact Or.inl ⟨rfl, h.symm⟩
      | Skipped c2 =>
          simp [depVerdict, hr] at h
          subst h
          exact Or.inr rfl

/-- A failed or skipped dependency record yields a verdict. -/
theorem depVerdict_ne_none_of_bad (recs : String → Option Status) (d : String) :
    (recs d = some Status.Failed → depVerdict recs d ≠ none) ∧
    (∀ c, recs d = some (Status.Skipped c) → depVerdict recs d ≠ none) := by
  constructor
  · intro h; simp [depVerdict, h]
  · intro c h; simp [depVerdict, h]

/-- Executor outcome when some dependency carries a failure verdict. -/
theorem execStage_some (action : String → Bool) (recs : String → Option Status)
    (s : Stage) (c : String) (h : s.deps.findSome? (depVerdict recs) = some c) :
    execStage action recs s = (Status.Skipped c, false) := by
  simp [execStage, h]

/-- Executor outcome when no dependency carries a failure verdict. -/
theorem execStage_none (action : String → Bool) (recs : String → Option Status)
    (s : Stage) (h : s.deps.findSome? (depVerdict recs) = none) :
    execStage action recs s =
      (if action s.id then Status.Succeeded else Status.Failed, true) := by
  simp [execStage, h]

/-- A stage with no failed dependency is never skipped. -/
theorem execStage_fst_not_skipped (action : String → Bool)
    (recs : String → Option Status) (s : Stage) (c : String)
    (h : s.deps.findSome? (depVerdict recs) = none) :
    (execStage action recs s).fst ≠ Status.Skipped c := by
  rw [execStage_none action recs s h]
  cases hA : action s.id <;> simp

/-- Unfolding equation of the Driver loop on no levels. -/
theorem runLevels_nil (action : String → Bool) (stages : List Stage)
    (recs : String → Option Status) (inv : String → Bool) :
    runLevels action stages (recs, inv) [] = (recs, inv) := rfl

/-- Unfolding equation of the Driver loop on a first level. -/
theorem runLevels_cons (action : String → Bool) (stages : List Stage)
    (recs : String → Option Status) (inv : String → Bool) (lvl : List String)
    (rest : List (List String)) :
    runLevels action stages (recs, inv) (lvl :: rest) =
      runLevels action stages
        (levelUpdate action stages recs lvl,
         invokedUpdate action stages recs inv lvl) rest := rfl

/-- The verdict of a dependency only depends on its own record. -/
theorem depVerdict_congr (f g : String → Option Status) (d : String)
    (h : f d = g d) : depVerdict f d = depVerdict g d := by
  simp [depVerdict, h]

/-- Master invariant of the Driver loop: over levels whose flattened ids are
fresh stage ids with dependencies recorded earlier, the record table stays
faithful to the executor (non-skipped stages ran their action and carry its
result, skipped stages never ran), every skip is attributed through a
dependency path to a failed stage, and dependencies of recorded stages are
recorded. -/
theorem runLevels_master (action : String → Bool) (stages : List Stage)
    (hids : (stageIds stages).Nodup) :
    ∀ (rest : List (List String)) (done : List String)
      (recs : String → Option Status) (inv : String → Bool),
      (∀ id ∈ rest.flatten, id ∈ stageIds stages) →
      ((done ++ rest.flatten).Nodup) →
      (∀ s ∈ stages, s.id ∈ rest.flatten →
        ∃ pre lvl suf, rest = pre ++ lvl :: suf ∧ s.id ∈ lvl ∧
          ∀ d ∈ s.deps, d ∈ done ++ pre.flatten) →
      (∀ id, (recs id).isSome = true ↔ id ∈ done) →
      (∀ s ∈ stages, ∀ st, recs s.id = some st → (∀ c, st ≠ Status.Skipped c) →
        st = (if action s.id then Status.Succeeded else Status.Failed) ∧
          inv s.id = true) →
      (∀ s ∈ stages, ∀ c, recs s.id = some (Status.Skipped c) → inv s.id = false) →
      (∀ s ∈ stages, (recs s.id).isSome = true →
        (∃ d ∈ s.deps, depVerdict recs d ≠ none) →
        ∃ c, recs s.id = some (Status.Skipped c)) →
      (∀ id c, recs id = some (Status.Skipped c) →
        recs c = some Status.Failed ∧ DepPath stages id c) →
      (∀ s ∈ stages, (recs s.id).isSome = true → ∀ d ∈ s.deps,
        (recs d).isSome = true) →
      (∀ id, ((runLevels action stages (recs, inv) rest).fst id).isSome = true ↔
        (id ∈ done ∨ id ∈ rest.flatten)) ∧
      (∀ s ∈ stages, ∀ st,
        (runLevels action stages (recs, inv) rest).fst s.id = some st →
        (∀ c, st ≠ Status.Skipped c) →
        st = (if action s.id then Status.Succeeded else Status.Failed) ∧
          (runLevels action stages (recs, inv) rest).snd s.id = true) ∧
      (∀ s ∈ stages, ∀ c,
        (runLevels action stages (recs, inv) rest).fst s.id =
          some (Status.Skipped c) →
        (runLevels action stages (recs, inv) rest).snd s.id = false) ∧
      (∀ s ∈ stages,
        ((runLevels action stages (recs, inv) rest).fst s.id).isSome = true →
        (∃ d ∈ s.deps,
          depVerdict ((runLevels action stages (recs, inv) rest).fst) d ≠ none) →
        ∃ c, (runLevels action stages (recs, inv) rest).fst s.id =
          some (Status.Skipped c)) ∧
      (∀ id c,
        (runLevels action stages (recs, inv) rest).fst id =
          some (Status.Skipped c) →
        (runLevels action stages (recs, inv) rest).fst c = some Status.Failed ∧
          DepPath stages id c) ∧
      (∀ s ∈ stages,
        ((runLevels action stages (recs, inv) rest).fst s.id).isSome = true →
        ∀ d ∈ s.deps,
          ((runLevels action stages (recs, inv) rest).fst d).isSome = true) := by
  intro rest
  induction rest with
  | nil =>
      intro done recs inv Hstage Hnodup Hsplit Hdom Hexec Hskipinv Hskipstep Hattr Hdeps
      rw [runLevels_nil]
      refine ⟨?_, Hexec, Hskipinv, Hskipstep, Hattr, Hdeps⟩
      intro id
      rw [Hdom id]
      simp
  | cons lvl rest' ih =>
      intro done recs inv Hstage Hnodup Hsplit Hdom Hexec Hskipinv Hskipstep Hattr Hdeps
      have hlvl_stage : ∀ x ∈ lvl, x ∈ stageIds stages := by
        intro x hx
        exact Hstage x (by rw [List.flatten_cons]; exact List.mem_append.mpr (Or.inl hx))
      have hrest_stage : ∀ x ∈ rest'.flatten, x ∈ stageIds stages := by
        intro x hx
        exact Hstage x (by rw [List.flatten_cons]; exact List.mem_append.mpr (Or.inr hx))
      have hnodup' : (done ++ (lvl ++ rest'.flatten)).Nodup := by
        simpa [List.flatten_cons] using Hnodup
      have hflat_nodup : (lvl ++ rest'.flatten).Nodup := hnodup'.of_append_right
      have hdisj_lvl_rest : ∀ x ∈ lvl, x ∉ rest'.flatten := by
        intro x hx
        exact fun hy => (List.disjoint_of_nodup_append hflat_nodup) hx hy
      have hlvl_not_done : ∀ x ∈ lvl, x ∉ done := by
        intro x hx hd
        exact (List.disjoint_of_nodup_append hnodup') hd (List.mem_append.mpr (Or.inl hx))
      have hF1 : ∀ s ∈ stages, s.id ∈ lvl → ∀ d ∈ s.deps, d ∈ done := by
        intro s hs hsl d hd
        obtain ⟨pre, lvl0, suf, heq, hmem, hdeps0⟩ := Hsplit s hs
          (by rw [List.flatten_cons]; exact List.mem_append.mpr (Or.inl hsl))
        cases pre with
        | nil =>
            have hde := hdeps0 d hd
            simpa using hde
        | cons q pre' =>
            exfalso
            have hq : q = lvl ∧ rest' = pre' ++ lvl0 :: suf := by
              have heq2 : lvl :: rest' = q :: (pre' ++ lvl0 :: suf) := heq
              injection heq2 with h1 h2
              exact ⟨h1.symm, h2⟩
            have hmem2 : s.id ∈ rest'.flatten := by
              rw [hq.2]
              exact List.mem_flatten.mpr ⟨lvl0, by simp, hmem⟩
            exact hdisj_lvl_rest s.id hsl hmem2
      have hproc : ∀ s ∈ stages, s.id ∈ lvl →
          levelUpdate action stages recs lvl s.id = some (execStage action recs s).fst ∧
          invokedUpdate action stages recs inv lvl s.id =
            (execStage action recs s).snd := by
        intro s hs hsl
        have hfind := find?_stage stages hids hs
        exact ⟨levelUpdate_mem action stages recs lvl hsl hfind,
               invokedUpdate_mem action stages recs inv lvl hsl hfind⟩
      have hdepstable : ∀ s ∈ stages, s.id ∈ lvl → ∀ d ∈ s.deps,
          levelUpdate action stages recs lvl d = recs d ∧ (recs d).isSome = true := by
        intro s hs hsl d hd
        have hdone := hF1 s hs hsl d hd
        have hdl : d ∉ lvl := fun hdl => hlvl_not_done d hdl hdone
        exact ⟨levelUpdate_not_mem action stages recs lvl d hdl, (Hdom d).mpr hdone⟩
      have Gdom : ∀ id,
          ((levelUpdate action stages recs lvl) id).isSome = true ↔
            id ∈ done ++ lvl := by
        intro id
        by_cases hid : id ∈ lvl
        · obtain ⟨s, hs, hsid, hfind⟩ :=
            find?_stage_of_mem_ids stages hids (hlvl_stage id hid)
          rw [levelUpdate_mem action stages recs lvl hid hfind]
          simp [hid]
        · rw [levelUpdate_not_mem action stages recs lvl id hid, Hdom id]
          constructor
          · intro h; exact List.mem_append.mpr (Or.inl h)
          · intro h
            rcases List.mem_append.mp h with h | h
            · exact h
            · exact absurd h hid
      have Gsplit : ∀ s ∈ stages, s.id ∈ rest'.flatten →
          ∃ pre lvl0 suf, rest' = pre ++ lvl0 :: suf ∧ s.id ∈ lvl0 ∧
            ∀ d ∈ s.deps, d ∈ (done ++ lvl) ++ pre.flatten := by
        intro s hs hsf
        obtain ⟨pre, lvl0, suf, heq, hmem, hdeps0⟩ := Hsplit s hs
          (by rw [List.flatten_cons]; exact List.mem_append.mpr (Or.inr hsf))
        cases pre with
        | nil =>
            exfalso
            have hl0 : lvl = lvl0 ∧ rest' = suf := by simpa using heq
            rw [← hl0.1] at hmem
            exact hdisj_lvl_rest s.id hmem hsf
        | cons q pre' =>
            have hq1 : q = lvl ∧ rest' = pre' ++ lvl0 :: suf := by
              have heq2 : lvl :: rest' = q :: (pre' ++ lvl0 :: suf) := heq
              injection heq2 with h1 h2
              exact ⟨h1.symm, h2⟩
            obtain ⟨hq, hrest⟩ := hq1
            subst hq
            refine ⟨pre', lvl0, suf, hrest, hmem, ?_⟩
            intro d hd
            have hde := hdeps0 d hd
            simp only [List.flatten_cons, List.mem_append] at hde ⊢
            tauto
      have Gnodup : ((done ++ lvl) ++ rest'.flatten).Nodup := by
        simpa [List.append_assoc] using hnodup'
      have Gexec : ∀ s ∈ stages, ∀ st,
          (levelUpdate action stages recs lvl) s.id = some st →
          (∀ c, st ≠ Status.Skipped c) →
          st = (if action s.id then Status.Succeeded else Status.Failed) ∧
            (invokedUpdate action stages recs inv lvl) s.id = true := by
        intro s hs st hrec hns
        by_cases hsl : s.id ∈ lvl
        · obtain ⟨h1, h2⟩ := hproc s hs hsl
          rw [h1] at hrec
          have hst : (execStage action recs s).fst = st := by
            injection hrec with h
          cases hfs : s.deps.findSome? (depVerdict recs) with
          | some c =>
              exfalso
              rw [execStage_some action recs s c hfs] at hst
              exact hns c hst.symm
          | none =>
              rw [execStage_none action recs s hfs] at hst
              refine ⟨hst.symm, ?_⟩
              rw [h2, execStage_none action recs s hfs]
        · rw [levelUpdate_not_mem action stages recs lvl s.id hsl] at hrec
          rw [invokedUpdate_not_mem action stages recs inv lvl s.id hsl]
          exact Hexec s hs st hrec hns
      have Gskipinv : ∀ s ∈ stages, ∀ c,
          (levelUpdate action stages recs lvl) s.id = some (Status.Skipped c) →
          (invokedUpdate action stages recs inv lvl) s.id = false := by
        intro s hs c hrec
        by_cases hsl : s.id ∈ lvl
        · obtain ⟨h1, h2⟩ := hproc s hs hsl
          rw [h1] at hrec
          have hst : (execStage action recs s).fst = Status.Skipped c := by
            injection hrec with h
          cases hfs : s.deps.findSome? (depVerdict recs) with
          | none => exact absurd hst (execStage_fst_not_skipped action recs s c hfs)
          | some c2 =>
              rw [h2, execStage_some action recs s c2 hfs]
        · rw [levelUpdate_not_mem action stages recs lvl s.id hsl] at hrec
          rw [invokedUpdate_not_mem action stages recs inv lvl s.id hsl]
          exact Hskipinv s hs c hrec
      have Gskipstep : ∀ s ∈ stages,
          ((levelUpdate action stages recs lvl) s.id).isSome = true →
          (∃ d ∈ s.deps, depVerdict (levelUpdate action stages recs lvl) d ≠ none) →
          ∃ c, (levelUpdate action stages recs lvl) s.id =
            some (Status.Skipped c) := by
        intro s hs hsome hex
        obtain ⟨d, hd, hdv⟩ := hex
        by_cases hsl : s.id ∈ lvl
        · have hstab := (hdepstable s hs hsl d hd).1
          rw [depVerdict_congr _ _ d hstab] at hdv
          cases hfs : depVerdict recs d with
          | none => exact absurd hfs hdv
          | some c0 =>
              obtain ⟨c, hc⟩ := findSome?_isSome_of_mem (depVerdict recs) s.deps hd hfs
              obtain ⟨h1, _⟩ := hproc s hs hsl
              rw [h1, execStage_some action recs s c hc]
              exact ⟨c, rfl⟩
        · rw [levelUpdate_not_mem action stages recs lvl s.id hsl] at hsome ⊢
          have hdsome : (recs d).isSome = true := Hdeps s hs hsome d hd
          have hddone : d ∈ done := (Hdom d).mp hdsome
          have hdl : d ∉ lvl := fun h => hlvl_not_done d h hddone
          rw [depVerdict_congr _ _ d
            (levelUpdate_not_mem action stages recs lvl d hdl)] at hdv
          exact Hskipstep s hs hsome ⟨d, hd, hdv⟩
      have Gattr : ∀ id c,
          (levelUpdate action stages recs lvl) id = some (Status.Skipped c) →
          (levelUpdate action stages recs lvl) c = some Status.Failed ∧
            DepPath stages id c := by
        intro id c hrec
        by_cases hid : id ∈ lvl
        · obtain ⟨s, hs, hsid, hfind⟩ :=
            find?_stage_of_mem_ids stages hids (hlvl_stage id hid)
          have hupd := levelUpdate_mem action stages recs lvl hid hfind
          rw [hupd] at hrec
          have hst : (execStage action recs s).fst = Status.Skipped c := by
            injection hrec with h
          cases hfs : s.deps.findSome? (depVerdict recs) with
          | none => exact absurd hst (execStage_fst_not_skipped action recs s c hfs)
          | some c2 =>
              have hc2 : c2 = c := by
                rw [execStage_some action recs s c2 hfs] at hst
                have : Status.Skipped c2 = Status.Skipped c := hst
                injection this with h
              subst hc2
              obtain ⟨d, hd, hdv⟩ := List.exists_of_findSome?_eq_some hfs
              rcases depVerdict_some_cases recs d c2 hdv with ⟨hfail, hcd⟩ | hskip
              · rw [hcd]
                have hdone : d ∈ done := (Hdom d).mp (by rw [hfail]; rfl)
                have hdl : d ∉ lvl := fun h => hlvl_not_done d h hdone
                constructor
                · rw [levelUpdate_not_mem action stages recs lvl d hdl]
                  exact hfail
                · exact DepPath.direct ⟨s, hs, hsid, hd⟩
              · obtain ⟨hcrec, hpath⟩ := Hattr d c2 hskip
                have hdone : c2 ∈ done := (Hdom c2).mp (by rw [hcrec]; rfl)
                have hcl : c2 ∉ lvl := fun h => hlvl_not_done c2 h hdone
                constructor
                · rw [levelUpdate_not_mem action stages recs lvl c2 hcl]
                  exact hcrec
                · exact DepPath.step ⟨s, hs, hsid, hd⟩ hpath
        · rw [levelUpdate_not_mem action stages recs lvl id hid] at hrec
          obtain ⟨hcrec, hpath⟩ := Hattr id c hrec
          have hdone : c ∈ done := (Hdom c).mp (by rw [hcrec]; rfl)
          have hcl : c ∉ lvl := fun h => hlvl_not_done c h hdone
          rw [levelUpdate_not_mem action stages recs lvl c hcl]
          exact ⟨hcrec, hpath⟩
      have Gdeps : ∀ s ∈ stages,
          ((levelUpdate action stages recs lvl) s.id).isSome = true →
          ∀ d ∈ s.deps, ((levelUpdate action stages recs lvl) d).isSome = true := by
        intro s hs hsome d hd
        by_cases hsl : s.id ∈ lvl
        · obtain ⟨hstab, hdsome⟩ := hdepstable s hs hsl d hd
          rw [hstab]
          exact hdsome
        · rw [levelUpdate_not_mem action stages recs lvl s.id hsl] at hsome
          have hdsome := Hdeps s hs hsome d hd
          have hddone : d ∈ done := (Hdom d).mp hdsome
          have hdl : d ∉ lvl := fun h => hlvl_not_done d h hddone
          rw [levelUpdate_not_mem action stages recs lvl d hdl]
          exact hdsome
      have hfin := ih (done ++ lvl) (levelUpdate action stages recs lvl)
        (invokedUpdate action stages recs inv lvl) hrest_stage Gnodup Gsplit Gdom
        Gexec Gskipinv Gskipstep Gattr Gdeps
      rw [runLevels_cons]
      obtain ⟨o1, o2, o3, o4, o5, o6⟩ := hfin
      refine ⟨?_, o2, o3, o4, o5, o6⟩
      intro id
      rw [o1 id]
      simp only [List.flatten_cons, List.mem_append]
      tauto

/-- C5: in every run of a valid graph, every transitive dependent of a failed
stage is marked Skipped and its action is never invoked, every skip is
attributed through a dependency path to an originally failed stage, and every
stage with no failed transitive dependency executes its action and records
its own outcome, unaffected by failures in other branches. -/
theorem failure_isolation (stages : List Stage) (action : String → Bool)
    (hids : (stageIds stages).Nodup)
    (hclosed : ∀ s ∈ stages, ∀ d ∈ s.deps, d ∈ stageIds stages)
    (hacyc : Acyclic stages) :
    (∀ s ∈ stages, ∀ f, DepPath stages s.id f →
      (applyRun action stages).status f = some Status.Failed →
      (∃ c, (applyRun action stages).status s.id = some (Status.Skipped c)) ∧
        (applyRun action stages).invoked s.id = false) ∧
    (∀ id c, (applyRun action stages).status id = some (Status.Skipped c) →
      (applyRun action stages).status c = some Status.Failed ∧
        DepPath stages id c) ∧
    (∀ s ∈ stages, (∀ f, DepPath stages s.id f →
        (applyRun action stages).status f ≠ some Status.Failed) →
      (applyRun action stages).status s.id =
        some (if action s.id then Status.Succeeded else Status.Failed) ∧
        (applyRun action stages).invoked s.id = true) := by
  obtain ⟨lvls, hok, haux⟩ := resolve_ok_exists stages hclosed hacyc
  have hst : (applyRun action stages).status =
      (runLevels action stages (fun _ => none, fun _ => false) lvls).fst := by
    simp [applyRun, hok, driverRun]
  have hinv : (applyRun action stages).invoked =
      (runLevels action stages (fun _ => none, fun _ => false) lvls).snd := by
    simp [applyRun, hok, driverRun]
  have hperm := resolveAux_ok_perm _ _ _ _ haux
  have Hstage : ∀ id ∈ lvls.flatten, id ∈ stageIds stages := fun id h =>
    hperm.mem_iff.mp h
  have Hnodup : (([] : List String) ++ lvls.flatten).Nodup := by
    simpa using hperm.nodup_iff.mpr hids
  have Hsplit : ∀ s ∈ stages, s.id ∈ lvls.flatten →
      ∃ pre lvl suf, lvls = pre ++ lvl :: suf ∧ s.id ∈ lvl ∧
        ∀ d ∈ s.deps, d ∈ ([] : List String) ++ pre.flatten := by
    intro s hs _
    exact resolveAux_ok_deps_earlier _ _ _ _ haux s hs
  have hmaster := runLevels_master action stages hids lvls []
    (fun _ => none) (fun _ => false) Hstage Hnodup Hsplit
    (by intro id; simp)
    (by intro s hs st h hns; exact absurd h (by simp))
    (by intro s hs c h; exact absurd h (by simp))
    (by intro s hs h hex; simp at h)
    (by intro id c h; exact absurd h (by simp))
    (by intro s hs h d hd; simp at h)
  obtain ⟨Odom, Oexec, Oskipinv, Oskipstep, Oattr, Odeps⟩ := hmaster
  rw [← hst] at Odom Oexec Oskipinv Oskipstep Oattr Odeps
  rw [← hinv] at Oexec Oskipinv
  have hdom' : ∀ s ∈ stages,
      ((applyRun action stages).status s.id).isSome = true := by
    intro s hs
    rw [Odom s.id]
    exact Or.inr (hperm.mem_iff.mpr (List.mem_map.mpr ⟨s, hs, rfl⟩))
  have hsingle : ∀ t ∈ stages, ∀ d ∈ t.deps,
      depVerdict ((applyRun action stages).status) d ≠ none →
      ∃ c, (applyRun action stages).status t.id = some (Status.Skipped c) := by
    intro t ht d hd hbad
    exact Oskipstep t ht (hdom' t ht) ⟨d, hd, hbad⟩
  have hbadV : ∀ f, ((applyRun action stages).status f = some Status.Failed ∨
      (∃ c, (applyRun action stages).status f = some (Status.Skipped c))) →
      depVerdict ((applyRun action stages).status) f ≠ none := by
    intro f h
    rcases h with h | ⟨c, h⟩
    · simp [depVerdict, h]
    · simp [depVerdict, h]
  have hpath : ∀ a f, DepPath stages a f →
      (applyRun action stages).status f = some Status.Failed →
      ∃ c, (applyRun action stages).status a = some (Status.Skipped c) := by
    intro a f hp
    induction hp with
    | direct h =>
        intro hf
        obtain ⟨t, ht, hid, hdep⟩ := h
        rw [← hid]
        exact hsingle t ht _ hdep (hbadV _ (Or.inl hf))
    | step h hp2 ih =>
        intro hf
        obtain ⟨t, ht, hid, hdep⟩ := h
        obtain ⟨c, hc⟩ := ih hf
        rw [← hid]
        exact hsingle t ht _ hdep (hbadV _ (Or.inr ⟨c, hc⟩))
  refine ⟨?_, Oattr, ?_⟩
  · intro s hs f hp hf
    obtain ⟨c, hc⟩ := hpath s.id f hp hf
    exact ⟨⟨c, hc⟩, Oskipinv s hs c hc⟩
  · intro s hs hnof
    have hsome := hdom' s hs
    cases hstv : (applyRun action stages).status s.id with
    | none => rw [hstv] at hsome; simp at hsome
    | some st =>
        by_cases hsk : ∃ c, st = Status.Skipped c
        · obtain ⟨c, rfl⟩ := hsk
          obtain ⟨hcf, hpathc⟩ := Oattr s.id c hstv
          exact absurd hcf (hnof c hpathc)
        · push_neg at hsk
          obtain ⟨hval, hinvtrue⟩ := Oexec s hs st hstv hsk
          rw [hval]
          exact ⟨rfl, hinvtrue⟩

/-- Witness: the two-branch example. A fails, its dependent C is Skipped with
cause A and never invoked, while the independent branch B, D still succeeds;
the attribution conjunct is obtained from the isolation theorem with its
hypotheses discharged on this concrete graph. -/
theorem failure_isolation_witness :
    (applyRun demoAction demoStages).status ("A") = some Status.Failed ∧
    (applyRun demoAction demoStages).status ("C") = some (Status.Skipped ("A")) ∧
    (applyRun demoAction demoStages).invoked ("C") = false ∧
    (applyRun demoAction demoStages).status ("B") = some Status.Succeeded ∧
    (applyRun demoAction demoStages).status ("D") = some Status.Succeeded ∧
    ((applyRun demoAction demoStages).status ("C") = some (Status.Skipped ("A")) →
      (applyRun demoAction demoStages).status ("A") = some Status.Failed ∧
      DepPath demoStages ("C") ("A")) := by
  have h := failure_isolation demoStages demoAction (by decide) (by decide)
    ⟨demoRank, by decide⟩
  refine ⟨by decide, by decide, by decide, by decide, by decide, ?_⟩
  intro hc
  exact h.2.1 ("C") ("A") hc
